import Mathlib

/-!
Verification development for the minecraft-gallery repository.

The core pipeline lives in `generate_gallery.py`: a filename parser
(`parse_filename_enhanced`), a thumbnail cache (`create_optimized_thumbnail`
plus the existence check in `generate_image_metadata`), a metadata assembler
(`generate_image_metadata`), and a paginator (`write_enhanced_pages`).
Python strings are modelled as lists of characters; the external image codec
(PIL) and the hash function are injected as oracles in the environment, as
the spec describes them as external collaborators.
-/

namespace Gallery

/-- Python strings are modelled as lists of Unicode characters. -/
abbrev Str := List Char

/-! ### Character facts about ASCII lower-casing (`str.lower`)

`Char.toLower` mirrors Python's `str.lower` on the basic-latin range, which
is the only range the program's vocabulary and separators live in. -/

theorem char_toNat_ofNat (n : Nat) (h : n.isValidChar) : (Char.ofNat n).toNat = n := by
  simp only [Char.ofNat, dif_pos h]
  rfl

theorem char_toNat_inj {c d : Char} (h : c.toNat = d.toNat) : c = d := by
  have hc := Char.ofNat_toNat c
  have hd := Char.ofNat_toNat d
  rw [← hc, ← hd, h]

theorem toLower_of_upper {c : Char} (h : 65 ≤ c.toNat ∧ c.toNat ≤ 90) :
    (Char.toLower c).toNat = c.toNat + 32 := by
  have hv : (c.toNat + 32).isValidChar := Or.inl (by omega)
  have hcond : c.toNat ≥ 65 ∧ c.toNat ≤ 90 := ⟨h.1, h.2⟩
  simp only [Char.toLower]
  rw [if_pos hcond]
  exact char_toNat_ofNat _ hv

theorem toLower_of_not_upper {c : Char} (h : ¬(65 ≤ c.toNat ∧ c.toNat ≤ 90)) :
    Char.toLower c = c := by
  have hcond : ¬(c.toNat ≥ 65 ∧ c.toNat ≤ 90) := fun hc => h ⟨hc.1, hc.2⟩
  simp only [Char.toLower]
  rw [if_neg hcond]

/-- Lower-casing is idempotent. -/
theorem toLower_toLower (c : Char) : Char.toLower (Char.toLower c) = Char.toLower c := by
  by_cases h : 65 ≤ c.toNat ∧ c.toNat ≤ 90
  · have h1 := toLower_of_upper h
    exact toLower_of_not_upper (by omega)
  · rw [toLower_of_not_upper h]
    exact toLower_of_not_upper h

/-- Lower-casing a character can only produce, or destroy, a character that is
not a latin letter if it already was that character. -/
theorem toLower_eq_iff {c d : Char}
    (hd : d.toNat < 65 ∨ (90 < d.toNat ∧ d.toNat < 97) ∨ 122 < d.toNat) :
    Char.toLower c = d ↔ c = d := by
  by_cases h : 65 ≤ c.toNat ∧ c.toNat ≤ 90
  · have h1 := toLower_of_upper h
    constructor
    · intro he
      exfalso
      rw [he] at h1
      omega
    · intro he
      exfalso
      rw [he] at h
      omega
  · rw [toLower_of_not_upper h]

theorem toLower_beq {c d : Char}
    (hd : d.toNat < 65 ∨ (90 < d.toNat ∧ d.toNat < 97) ∨ 122 < d.toNat) :
    (Char.toLower c == d) = (c == d) := by
  have h := toLower_eq_iff (c := c) hd
  by_cases hc : c = d
  · have h2 : Char.toLower c = d := h.mpr hc
    rw [h2, hc]
  · have h2 : Char.toLower c ≠ d := fun he => hc (h.mp he)
    simp [hc, h2]

theorem toLower_beq_dot (c : Char) : (Char.toLower c == '.') = (c == '.') :=
  toLower_beq (by left; decide)

theorem toLower_beq_slash (c : Char) : (Char.toLower c == '/') = (c == '/') :=
  toLower_beq (by left; decide)

theorem toLower_beq_underscore (c : Char) : (Char.toLower c == '_') = (c == '_') :=
  toLower_beq (by right; left; decide)

/-! ### String primitives used by the source -/

/-- Index of the last occurrence of `c` in the string, if any. -/
def lastIdx (c : Char) : Str → Option Nat
  | [] => none
  | a :: as =>
    match lastIdx c as with
    | some k => some (k + 1)
    | none => if a == c then some 0 else none

/-- Position where `os.path.splitext` starts looking for a basename:
just after the last path separator, or the start of the string. -/
def extScanStart (p : Str) : Nat :=
  match lastIdx '/' p with
  | some i => i + 1
  | none => 0

/-- `os.path.splitext` for a POSIX path: split off the extension at the last
dot of the basename, unless every character of the basename before that dot
is itself a dot (so `".bashrc"` has no extension). -/
def splitext (p : Str) : Str × Str :=
  match lastIdx '.' p with
  | none => (p, [])
  | some d =>
    if d < extScanStart p then (p, [])
    else if ((p.drop (extScanStart p)).take (d - extScanStart p)).all (fun c => c == '.') then
      (p, [])
    else (p.take d, p.drop d)

/-- Python `s.split(sep)` for a one-character separator: keeps empty pieces,
and the empty string splits to one empty piece. -/
def pySplit (sep : Char) : Str → List Str
  | [] => [[]]
  | c :: cs =>
    if c == sep then [] :: pySplit sep cs
    else
      match pySplit sep cs with
      | [] => [[c]]
      | p :: ps => (c :: p) :: ps

/-- Python `needle in hay`: contiguous-substring containment. -/
def hasSub (needle : Str) : Str → Bool
  | [] => needle.isEmpty
  | c :: cs => needle.isPrefixOf (c :: cs) || hasSub needle cs

/-- Recursion workhorse for `pyReplace`; the fuel (bounded below by the
length of the string) only makes the recursion structural and never affects
the result, see `pyReplaceFuel_congr`. -/
def pyReplaceFuel (pat rep : Str) : Nat → Str → Str
  | _, [] => []
  | 0, s => s
  | fuel + 1, c :: cs =>
    if pat ≠ [] ∧ pat.isPrefixOf (c :: cs) then
      rep ++ pyReplaceFuel pat rep fuel ((c :: cs).drop pat.length)
    else
      c :: pyReplaceFuel pat rep fuel cs

theorem pyReplaceFuel_congr (pat rep : Str) :
    ∀ f₁ : Nat, ∀ f₂ : Nat, ∀ s : Str, s.length ≤ f₁ → s.length ≤ f₂ →
      pyReplaceFuel pat rep f₁ s = pyReplaceFuel pat rep f₂ s := by
  intro f₁
  induction f₁ with
  | zero =>
    intro f₂ s h1 _
    have : s = [] := List.length_eq_zero.mp (Nat.le_zero.mp h1)
    subst this
    cases f₂ <;> rfl
  | succ f ih =>
    intro f₂ s h1 h2
    cases s with
    | nil => cases f₂ <;> rfl
    | cons c cs =>
    cases f₂ with
    | zero => simp at h2
    | succ g =>
      simp only [pyReplaceFuel]
      by_cases hp : pat ≠ [] ∧ pat.isPrefixOf (c :: cs)
      · rw [if_pos hp, if_pos hp]
        have hlen : ((c :: cs).drop pat.length).length ≤ cs.length := by
          have : 0 < pat.length := List.length_pos.mpr hp.1
          simp only [List.length_drop, List.length_cons]
          omega
        rw [ih g _ (by simp at h1; omega) (by simp at h2; omega)]
      · rw [if_neg hp, if_neg hp]
        rw [ih g cs (by simp at h1; omega) (by simp at h2; omega)]

/-- Python `s.replace(pat, rep)` for a non-empty pattern: replace every
non-overlapping occurrence, scanning left to right.  (The program only ever
replaces non-empty patterns, so Python's empty-pattern interleaving is not
modelled.) -/
def pyReplace (pat rep s : Str) : Str :=
  pyReplaceFuel pat rep s.length s

theorem pyReplace_nil (pat rep : Str) : pyReplace pat rep [] = [] := rfl

theorem pyReplace_cons (pat rep : Str) (c : Char) (cs : Str) :
    pyReplace pat rep (c :: cs) =
      if pat ≠ [] ∧ pat.isPrefixOf (c :: cs) then
        rep ++ pyReplace pat rep ((c :: cs).drop pat.length)
      else
        c :: pyReplace pat rep cs := by
  show pyReplaceFuel pat rep (cs.length + 1) (c :: cs) = _
  simp only [pyReplaceFuel]
  by_cases hp : pat ≠ [] ∧ pat.isPrefixOf (c :: cs)
  · rw [if_pos hp, if_pos hp]
    have : 0 < pat.length := List.length_pos.mpr hp.1
    rw [pyReplaceFuel_congr pat rep cs.length ((c :: cs).drop pat.length).length
      ((c :: cs).drop pat.length) (by simp; omega) le_rfl]
    rfl
  · rw [if_neg hp, if_neg hp]
    rfl

/-- Lexicographic comparison of strings by code point, as Python sorts them. -/
def strLe : Str → Str → Bool
  | [], _ => true
  | _ :: _, [] => false
  | a :: as, b :: bs => a < b || (a == b && strLe as bs)

/-- Whether a list of strings is in weakly increasing lexicographic order. -/
def strSorted : List Str → Bool
  | [] => true
  | [_] => true
  | a :: b :: rest => strLe a b && strSorted (b :: rest)

/-! ### Module-level constants of `generate_gallery.py` -/

def IMAGE_FOLDER : Str := "images".data

def THUMBNAIL_FOLDER : Str := "thumbnails".data

def OUTPUT_PREFIX : Str := "index".data

def VALID_EXTENSIONS : List Str :=
  [".jpg".data, ".jpeg".data, ".png".data, ".gif".data, ".webp".data]

def IMAGES_PER_PAGE : Nat := 20

/-- The fixed tag vocabulary, in declaration order. -/
def AVAILABLE_TAGS : List Str :=
  ["builds".data, "redstone".data, "landscape".data, "event".data, "pvp".data,
   "farming".data, "mining".data, "nether".data, "end".data, "village".data,
   "castle".data, "modern".data, "medieval".data]

/-! ### The filename parser (`parse_filename_enhanced`, lines 45-61) -/

/-- `parse_filename_enhanced(fname)`: split the stem of the (lower-cased)
filename on underscores, detect vocabulary tags by substring match, and read
primary tag, date and time positionally when at least three segments exist. -/
def parse_filename_enhanced (fname : Str) : Str × Str × List Str :=
  let name := (splitext fname).1
  let parts := pySplit '_' (name.map Char.toLower)
  let detected_tags := AVAILABLE_TAGS.filter (fun tag => parts.any (fun part => hasSub tag part))
  if 3 ≤ parts.length then
    let tag := parts.headI
    let date := parts.getD 1 []
    let time := pyReplace "-".data ":".data (parts.getD 2 [])
    (tag, date ++ ' ' :: time, detected_tags)
  else
    ("screenshot".data, "Unknown".data, detected_tags)

/-! ### Lower-casing commutes with the string primitives -/

theorem lastIdx_map {f : Char → Char} {d : Char} (hf : ∀ c, (f c == d) = (c == d)) :
    ∀ s : Str, lastIdx d (s.map f) = lastIdx d s := by
  intro s
  induction s with
  | nil => rfl
  | cons a as ih =>
    simp only [List.map_cons, lastIdx, ih]
    cases lastIdx d as <;> simp [hf a]

theorem extScanStart_map {f : Char → Char} (hf : ∀ c, (f c == '/') = (c == '/'))
    (s : Str) : extScanStart (s.map f) = extScanStart s := by
  simp only [extScanStart, lastIdx_map hf]

theorem splitext_map {f : Char → Char} (hdot : ∀ c, (f c == '.') = (c == '.'))
    (hslash : ∀ c, (f c == '/') = (c == '/')) (s : Str) :
    splitext (s.map f) = ((splitext s).1.map f, (splitext s).2.map f) := by
  cases h : lastIdx '.' s with
  | none =>
    simp only [splitext, lastIdx_map hdot, h]
    simp
  | some d =>
    simp only [splitext, lastIdx_map hdot, extScanStart_map hslash, h]
    by_cases h1 : d < extScanStart s
    · rw [if_pos h1, if_pos h1]
      simp
    · rw [if_neg h1, if_neg h1]
      have hall : (((s.map f).drop (extScanStart s)).take (d - extScanStart s)).all
          (fun c => c == '.') =
          ((s.drop (extScanStart s)).take (d - extScanStart s)).all (fun c => c == '.') := by
        rw [← List.map_drop, ← List.map_take, List.all_map]
        congr 1
        funext c
        exact hdot c
      rw [hall]
      by_cases h2 : ((s.drop (extScanStart s)).take (d - extScanStart s)).all
          (fun c => c == '.') = true
      · rw [if_pos h2, if_pos h2]
        simp
      · rw [if_neg h2, if_neg h2]
        simp [List.map_take, List.map_drop]

theorem map_toLower_idem (s : Str) :
    (s.map Char.toLower).map Char.toLower = s.map Char.toLower := by
  rw [List.map_map]
  exact List.map_congr_left (fun c _ => toLower_toLower c)

theorem pySplit_ne_nil (sep : Char) : ∀ s : Str, pySplit sep s ≠ [] := by
  intro s
  cases s with
  | nil => simp [pySplit]
  | cons c cs =>
    simp only [pySplit]
    by_cases h : (c == sep) = true
    · simp [h]
    · rw [if_neg h]
      cases hq : pySplit sep cs <;> simp

theorem pySplit_map {f : Char → Char} {sep : Char} (hf : ∀ c, (f c == sep) = (c == sep)) :
    ∀ s : Str, pySplit sep (s.map f) = (pySplit sep s).map (List.map f) := by
  intro s
  induction s with
  | nil => simp [pySplit]
  | cons c cs ih =>
    simp only [List.map_cons, pySplit, hf c, ih]
    by_cases h : (c == sep) = true
    · rw [if_pos h, if_pos h]
      simp
    · rw [if_neg h, if_neg h]
      cases hq : pySplit sep cs with
      | nil => exact absurd hq (pySplit_ne_nil sep cs)
      | cons p ps => simp [hq]

/-- The whole parser is insensitive to the case of its input: lower-casing
the filename first changes nothing, because the parser lower-cases the stem
itself and `splitext` commutes with lower-casing. -/
theorem parse_filename_enhanced_map_toLower (fname : Str) :
    parse_filename_enhanced (fname.map Char.toLower) = parse_filename_enhanced fname := by
  simp only [parse_filename_enhanced, splitext_map toLower_beq_dot toLower_beq_slash,
    map_toLower_idem]

/-! ### The paginator (`write_enhanced_pages`, lines 749-777)

`total_pages = ceil(total / IMAGES_PER_PAGE)` and page `i` (1-indexed) is the
slice `images[(i-1)*IMAGES_PER_PAGE : i*IMAGES_PER_PAGE]`.  For naturals with
`ps ≥ 1` the ceiling of `n / ps` is `(n + ps - 1) / ps`. -/

def totalPages (n ps : Nat) : Nat := (n + ps - 1) / ps

/-- The list of page slices produced by the loop in `write_enhanced_pages`,
0-indexed: entry `i` holds the records of 1-indexed page `i+1`. -/
def paginate {α : Type} (records : List α) (ps : Nat) : List (List α) :=
  (List.range (totalPages records.length ps)).map
    (fun i => (records.drop (i * ps)).take ps)

theorem totalPages_zero (ps : Nat) : totalPages 0 ps = 0 := by
  simp only [totalPages, Nat.zero_add]
  rcases Nat.eq_zero_or_pos ps with h | h
  · simp [h]
  · exact Nat.div_eq_of_lt (by omega)

theorem totalPages_pos {n ps : Nat} (hn : 0 < n) (hps : 1 ≤ ps) :
    0 < totalPages n ps := by
  exact Nat.div_pos (by omega) hps

theorem totalPages_succ {n ps : Nat} (hn : 0 < n) (hps : 1 ≤ ps) :
    totalPages n ps = totalPages (n - ps) ps + 1 := by
  simp only [totalPages]
  rcases Nat.le_total n ps with h | h
  · have h2 : n - ps = 0 := by omega
    rw [h2]
    rw [show n + ps - 1 = (n - 1) + ps by omega, Nat.add_div_right _ (by omega)]
    rw [Nat.div_eq_of_lt (show n - 1 < ps by omega)]
    rw [show (0 : Nat) + ps - 1 = ps - 1 by omega, Nat.div_eq_of_lt (show ps - 1 < ps by omega)]
  · rw [show n + ps - 1 = (n - ps + ps - 1) + ps by omega, Nat.add_div_right _ (by omega)]

theorem paginate_nil {α : Type} (ps : Nat) : paginate ([] : List α) ps = [] := by
  simp [paginate, totalPages_zero]

theorem paginate_cons {α : Type} {records : List α} {ps : Nat}
    (h : records ≠ []) (hps : 1 ≤ ps) :
    paginate records ps = records.take ps :: paginate (records.drop ps) ps := by
  have hn : 0 < records.length := List.length_pos.mpr h
  simp only [paginate, List.length_drop]
  rw [totalPages_succ hn hps, List.range_succ_eq_map, List.map_cons, List.map_map]
  congr 1
  · simp
  · apply List.map_congr_left
    intro i _
    simp only [Function.comp_apply]
    rw [Nat.succ_mul, Nat.add_comm, ← List.drop_drop]

theorem paginate_ne_nil {α : Type} {records : List α} {ps : Nat}
    (h : records ≠ []) (hps : 1 ≤ ps) : paginate records ps ≠ [] := by
  rw [paginate_cons h hps]
  simp

/-- Concatenating the pages in order reproduces the record sequence. -/
theorem paginate_flatten {α : Type} (ps : Nat) (hps : 1 ≤ ps) :
    ∀ n : Nat, ∀ records : List α, records.length ≤ n →
      (paginate records ps).flatten = records := by
  intro n
  induction n with
  | zero =>
    intro records hlen
    have : records = [] := List.length_eq_zero.mp (Nat.le_zero.mp hlen)
    subst this
    simp [paginate_nil]
  | succ m ih =>
    intro records hlen
    by_cases h : records = []
    · subst h
      simp [paginate_nil]
    · rw [paginate_cons h hps, List.flatten_cons,
        ih (records.drop ps) (by simp only [List.length_drop]; omega)]
      exact List.take_append_drop ps records

/-- Every page except the last holds exactly `ps` records. -/
theorem paginate_full_pages {α : Type} (ps : Nat) (hps : 1 ≤ ps) :
    ∀ n : Nat, ∀ records : List α, records.length ≤ n →
      ∀ p ∈ (paginate records ps).dropLast, p.length = ps := by
  intro n
  induction n with
  | zero =>
    intro records hlen p hp
    have : records = [] := List.length_eq_zero.mp (Nat.le_zero.mp hlen)
    subst this
    simp [paginate_nil] at hp
  | succ m ih =>
    intro records hlen p hp
    by_cases h : records = []
    · subst h
      simp [paginate_nil] at hp
    · rw [paginate_cons h hps] at hp
      by_cases h2 : records.drop ps = []
      · rw [h2, paginate_nil] at hp
        simp at hp
      · rw [List.dropLast_cons_of_ne_nil (paginate_ne_nil h2 hps)] at hp
        rcases List.mem_cons.mp hp with h3 | h3
        · subst h3
          have : ps ≤ records.length := by
            by_contra hc
            exact h2 (List.drop_eq_nil_of_le (by omega))
          simp [List.length_take, Nat.min_eq_left this]
        · exact ih (records.drop ps) (by simp only [List.length_drop]; omega) p h3

/-- The last page holds between 1 and `ps` records. -/
theorem paginate_last_page {α : Type} (ps : Nat) (hps : 1 ≤ ps) :
    ∀ n : Nat, ∀ records : List α, records.length ≤ n → records ≠ [] →
      ∀ p, (paginate records ps).getLast? = some p → 1 ≤ p.length ∧ p.length ≤ ps := by
  intro n
  induction n with
  | zero =>
    intro records hlen hne
    exact absurd (List.length_eq_zero.mp (Nat.le_zero.mp hlen)) hne
  | succ m ih =>
    intro records hlen hne p hp
    rw [paginate_cons hne hps] at hp
    by_cases h2 : records.drop ps = []
    · rw [h2, paginate_nil] at hp
      simp only [List.getLast?_singleton, Option.some_inj] at hp
      subst hp
      have h3 : records.length ≤ ps := by
        by_contra hc
        have : records.drop ps ≠ [] := by
          apply List.ne_nil_of_length_pos
          simp only [List.length_drop]
          omega
        exact this h2
      have h4 : 0 < records.length := List.length_pos.mpr hne
      constructor
      · simp only [List.length_take]
        omega
      · simp only [List.length_take]
        omega
    · obtain ⟨q, qs, hql⟩ := List.exists_cons_of_ne_nil (paginate_ne_nil h2 hps)
      rw [hql, List.getLast?_cons_cons, ← hql] at hp
      exact ih (records.drop ps) (by simp only [List.length_drop]; omega) h2 p hp

/-! ### Pipeline data model (`generate_image_metadata`, lines 63-130)

The filesystem, the PIL image codec and the hash function are external
capabilities; they enter the embedding as an environment of oracles.  The
`images` folder listing is `listing`; `fs0` is the set of files initially
present at thumbnail destination paths; `thumbOk p` says whether PIL can
decode/resize/encode the image at path `p`; `dims p` is its pixel size
(`none` when `Image.open` raises); `md5hex` is the hex digest of `md5`. -/

structure Env where
  dirExists : Bool
  listing : List Str
  fs0 : List Str
  thumbOk : Str → Bool
  dims : Str → Option (Nat × Nat)
  md5hex : Str → Str
  r2 : Str
  loreExists : Bool

/-- One element of `metadata["images"]` (lines 107-117).  `aspect_ratio` is
modelled as a rational. -/
structure ImageData where
  filename : Str
  src : Str
  thumbnail : Str
  alt : Str
  tag : Str
  date : Str
  auto_tags : List Str
  aspect_ratio : ℚ
  hash : Str
deriving DecidableEq

/-- The `metadata` dictionary (lines 65-70).  The Python `set` in the `tags`
slot is represented by the duplicate-free list of its members in insertion
order; the order in which `list(...)` later enumerates the set is a separate
parameter (`validEnum` below), because Python leaves it unspecified. -/
structure MetaState where
  images : List ImageData
  tags : List Str
  total_count : Nat
  last_updated : Option Str
deriving DecidableEq

/-- `metadata["tags"].update(auto_tags)`: set union, keeping the member list
duplicate-free. -/
def setUpdate (acc : List Str) (l : List Str) : List Str :=
  l.foldl (fun a t => if t ∈ a then a else a ++ [t]) acc

/-- `ext in VALID_EXTENSIONS` for `ext = os.path.splitext(fname)[1].lower()`
(lines 79-80). -/
def isValidExt (fname : Str) : Bool :=
  VALID_EXTENSIONS.contains ((splitext fname).2.map Char.toLower)

/-- `thumb_name = os.path.splitext(fname)[0] + '.webp'` (line 84). -/
def thumb_name_of (fname : Str) : Str := (splitext fname).1 ++ ".webp".data

/-- `thumb_path = os.path.join(THUMBNAIL_FOLDER, thumb_name)` (line 85). -/
def thumb_path_of (fname : Str) : Str := THUMBNAIL_FOLDER ++ '/' :: thumb_name_of fname

/-- `create_optimized_thumbnail(image_path, thumbnail_path)` (lines 26-43):
on codec success, write (and return) `webp_path`, the destination path with
its extension replaced by `.webp`; on any codec failure, log and return
`None` having written nothing.  Returns (result, filesystem after, paths
written). -/
def create_optimized_thumbnail (env : Env) (fs : List Str)
    (image_path thumbnail_path : Str) : Option Str × List Str × List Str :=
  if env.thumbOk image_path then
    let webp_path := pyReplace (splitext thumbnail_path).2 ".webp".data thumbnail_path
    (some webp_path, webp_path :: fs, [webp_path])
  else
    (none, fs, [])

/-- Lines 87-91: create the thumbnail only when no file exists at
`thumb_path`.  Returns (filesystem after, paths written). -/
def ensure_thumbnail (env : Env) (fs : List Str) (fname : Str) : List Str × List Str :=
  if thumb_path_of fname ∈ fs then (fs, [])
  else
    let r := create_optimized_thumbnail env fs (IMAGE_FOLDER ++ '/' :: fname)
      (thumb_path_of fname)
    (r.2.1, r.2.2)

/-- State carried by the per-file loop of `generate_image_metadata`. -/
structure RunState where
  st : MetaState
  fs : List Str
  thumbWrites : List Str

/-- The `image_data` record assembled for one recognized image
(lines 93-117): parse the filename, read the pixel dimensions for the
aspect ratio (defaulting to `1.0` when `Image.open` fails), pick the full
image source from the remote base URL when configured, and truncate the
filename's md5 hex digest to 8 characters. -/
def imageDataOf (env : Env) (fname : Str) : ImageData :=
  { filename := fname
    src := if env.r2.isEmpty then IMAGE_FOLDER ++ '/' :: fname else env.r2 ++ '/' :: fname
    thumbnail := THUMBNAIL_FOLDER ++ '/' :: thumb_name_of fname
    alt := fname
    tag := (parse_filename_enhanced fname).1
    date := (parse_filename_enhanced fname).2.1
    auto_tags := (parse_filename_enhanced fname).2.2
    aspect_ratio :=
      match env.dims (IMAGE_FOLDER ++ '/' :: fname) with
      | some (w, h) => (w : ℚ) / (h : ℚ)
      | none => 1
    hash := (env.md5hex fname).take 8 }

/-- The body of the `for fname in sorted(os.listdir(...))` loop
(lines 78-121). -/
def processImage (env : Env) (s : RunState) (fname : Str) : RunState :=
  if isValidExt fname then
    let fsw := ensure_thumbnail env s.fs fname
    { st :=
        { images := s.st.images ++ [imageDataOf env fname]
          tags := setUpdate s.st.tags (parse_filename_enhanced fname).2.2
          total_count := s.st.total_count + 1
          last_updated := s.st.last_updated }
      fs := fsw.1
      thumbWrites := s.thumbWrites ++ fsw.2 }
  else
    s

/-- `sorted(os.listdir(IMAGE_FOLDER))`: the listing in lexicographic order
(insertion sort; only the sorted result is observable). -/
def insertSorted (x : Str) : List Str → List Str
  | [] => [x]
  | y :: ys => if strLe x y then x :: y :: ys else y :: insertSorted x ys

def pySorted (l : List Str) : List Str := l.foldr insertSorted []

/-- A possible behaviour of Python's `list(s)` on a set with member list
`l`: some duplicate-free enumeration of exactly the members.  CPython's
actual order depends on string hashing, which is randomized per process, so
the code guarantees no more than this. -/
def validEnum (e : List Str → List Str) : Prop :=
  ∀ l : List Str, (e l).Nodup ∧ ∀ x, x ∈ e l ↔ x ∈ l

/-- Result of `generate_image_metadata`: the metadata (with `tags` already
converted by `list(...)`, line 123), the thumbnail files written, the final
filesystem, and whether `gallery_metadata.json` was written (line 126). -/
structure GenResult where
  md : MetaState
  thumbWrites : List Str
  fsFinal : List Str
  jsonWritten : Bool

def initialRunState (env : Env) : RunState :=
  { st := { images := [], tags := [], total_count := 0, last_updated := none }
    fs := env.fs0
    thumbWrites := [] }

/-- `generate_image_metadata()` (lines 63-130), parameterized by the
set-enumeration behaviour `enum` of `list(metadata["tags"])`.  When the
image folder is missing it returns the empty metadata at once, before
writing anything (lines 72-74). -/
def generate_image_metadata (env : Env) (enum : List Str → List Str) : GenResult :=
  if env.dirExists then
    let r := (pySorted env.listing).foldl (processImage env) (initialRunState env)
    { md :=
        { images := r.st.images
          tags := enum r.st.tags
          total_count := r.st.total_count
          last_updated := r.st.last_updated }
      thumbWrites := r.thumbWrites
      fsFinal := r.fs
      jsonWritten := true }
  else
    { md := { images := [], tags := [], total_count := 0, last_updated := none }
      thumbWrites := []
      fsFinal := env.fs0
      jsonWritten := false }

def GALLERY_METADATA_JSON : Str := "gallery_metadata.json".data

/-- `index.html` for page 1, `index<i>.html` for later pages
(lines 769-770). -/
def pageFileName (i : Nat) : Str :=
  OUTPUT_PREFIX ++ (if i = 1 then [] else (toString i).data) ++ ".html".data

/-- `write_enhanced_pages(metadata)` (lines 749-777): exit code 1 on an
empty gallery, else one HTML file per page.  Returns (exit, files
written). -/
def write_enhanced_pages (md : MetaState) : Option Nat × List Str :=
  if md.images.length = 0 then (some 1, [])
  else
    let total_pages := totalPages md.images.length IMAGES_PER_PAGE
    (none, (List.range total_pages).map (fun i => pageFileName (i + 1)))

/-- `main()` (lines 779-796): assemble metadata, abort with exit code 1 when
no image was found, otherwise write the pages and the lore page.  Returns
(exit code if any, output artifacts written: thumbnails, the metadata
document, HTML pages). -/
def mainRun (env : Env) (enum : List Str → List Str) : Option Nat × List Str :=
  let g := generate_image_metadata env enum
  let metaArtifacts :=
    g.thumbWrites ++ (if g.jsonWritten then [GALLERY_METADATA_JSON] else [])
  if g.md.total_count = 0 then (some 1, metaArtifacts)
  else
    let wp := write_enhanced_pages g.md
    match wp.1 with
    | some k => (some k, metaArtifacts ++ wp.2)
    | none =>
      (none, metaArtifacts ++ wp.2 ++
        (if env.loreExists then ["carcosa.html".data] else []))

/-! ### The JSON snapshot (`json.dump(metadata, f)`, lines 126-127) -/

inductive Json where
  | null : Json
  | jbool : Bool → Json
  | jnum : ℚ → Json
  | jstr : Str → Json
  | jarr : List Json → Json
  | jobj : List (Str × Json) → Json

def optStrToJson : Option Str → Json
  | none => Json.null
  | some s => Json.jstr s

def imageToJson (img : ImageData) : Json :=
  Json.jobj
    [("filename".data, Json.jstr img.filename),
     ("src".data, Json.jstr img.src),
     ("thumbnail".data, Json.jstr img.thumbnail),
     ("alt".data, Json.jstr img.alt),
     ("tag".data, Json.jstr img.tag),
     ("date".data, Json.jstr img.date),
     ("auto_tags".data, Json.jarr (img.auto_tags.map Json.jstr)),
     ("aspect_ratio".data, Json.jnum img.aspect_ratio),
     ("hash".data, Json.jstr img.hash)]

/-- The serialized metadata document, with the dictionary's insertion-order
keys. -/
def metadataToJson (md : MetaState) : Json :=
  Json.jobj
    [("images".data, Json.jarr (md.images.map imageToJson)),
     ("tags".data, Json.jarr (md.tags.map Json.jstr)),
     ("total_count".data, Json.jnum md.total_count),
     ("last_updated".data, optStrToJson md.last_updated)]

def jlookup : Json → Str → Option Json
  | Json.jobj fields, k => (fields.find? (fun kv => kv.1 == k)).map (fun kv => kv.2)
  | _, _ => none

/-! ### Resolving the thumbnail destination path

`create_optimized_thumbnail` writes to `thumbnail_path` with its extension
replaced by `.webp`; since the caller always passes a path that already ends
in `.webp`, the replacement is the identity and the write lands exactly at
`thumb_path` (lines 38 and 84-85). -/

theorem isPrefixOf_append : ∀ p s : Str, p.isPrefixOf s = true → p ++ s.drop p.length = s
  | [], s, _ => by simp
  | a :: p, [], h => by simp [List.isPrefixOf] at h
  | a :: p, b :: s, h => by
    simp only [List.isPrefixOf, Bool.and_eq_true, beq_iff_eq] at h
    obtain ⟨rfl, h2⟩ := h
    simp only [List.cons_append, List.length_cons, List.drop_succ_cons, List.cons.injEq,
      true_and]
    exact isPrefixOf_append p s h2

theorem pyReplace_self_aux (pat : Str) :
    ∀ n : Nat, ∀ s : Str, s.length ≤ n → pyReplace pat pat s = s := by
  intro n
  induction n with
  | zero =>
    intro s hlen
    have : s = [] := List.length_eq_zero.mp (Nat.le_zero.mp hlen)
    subst this
    rfl
  | succ m ih =>
    intro s hlen
    cases s with
    | nil => rfl
    | cons c cs =>
      rw [pyReplace_cons]
      by_cases h : pat ≠ [] ∧ pat.isPrefixOf (c :: cs) = true
      · rw [if_pos h]
        have hp : 0 < pat.length := List.length_pos.mpr h.1
        have hdl : ((c :: cs).drop pat.length).length ≤ m := by
          simp only [List.length_drop, List.length_cons]
          simp only [List.length_cons] at hlen
          omega
        rw [ih _ hdl]
        exact isPrefixOf_append pat (c :: cs) h.2
      · rw [if_neg h]
        rw [ih cs (by simp only [List.length_cons] at hlen; omega)]

/-- Replacing a pattern by itself changes nothing. -/
theorem pyReplace_self (pat s : Str) : pyReplace pat pat s = s :=
  pyReplace_self_aux pat s.length s le_rfl

theorem lastIdx_none_of_not_mem {c : Char} : ∀ {s : Str}, c ∉ s → lastIdx c s = none := by
  intro s
  induction s with
  | nil => intro _; rfl
  | cons a as ih =>
    intro h
    have h1 : c ∉ as := fun hc => h (List.mem_cons_of_mem a hc)
    have h2 : a ≠ c := fun hc => h (hc ▸ List.mem_cons_self a as)
    simp only [lastIdx, ih h1]
    simp [h2]

theorem lastIdx_append_of_some {c : Char} {ys : Str} {k : Nat}
    (h : lastIdx c ys = some k) :
    ∀ xs : Str, lastIdx c (xs ++ ys) = some (xs.length + k) := by
  intro xs
  induction xs with
  | nil => simpa using h
  | cons a as ih =>
    show (match lastIdx c (as ++ ys) with
      | some k => some (k + 1)
      | none => if (a == c) = true then some 0 else none) = some ((a :: as).length + k)
    rw [ih]
    show some (as.length + k + 1) = some ((a :: as).length + k)
    simp only [List.length_cons, Option.some.injEq]
    omega

theorem lastIdx_append_of_none {c : Char} {ys : Str} (h : lastIdx c ys = none) :
    ∀ xs : Str, lastIdx c (xs ++ ys) = lastIdx c xs := by
  intro xs
  induction xs with
  | nil => simpa using h
  | cons a as ih =>
    show (match lastIdx c (as ++ ys) with
      | some k => some (k + 1)
      | none => if (a == c) = true then some 0 else none) = _
    rw [ih]
    rfl

/-- When a filename has a recognized extension, `splitext` really does split
it at its last dot, and the stem is not made of dots only. -/
theorem splitext_valid {fname : Str} (hsep : '/' ∉ fname) (hval : isValidExt fname = true) :
    ∃ d, lastIdx '.' fname = some d ∧
      (splitext fname).1 = fname.take d ∧ (splitext fname).2 = fname.drop d ∧
      ((fname.take d).all (fun c => c == '.')) = false := by
  have hstart : extScanStart fname = 0 := by
    simp [extScanStart, lastIdx_none_of_not_mem hsep]
  have hne : (splitext fname).2 ≠ [] := by
    intro h0
    rw [isValidExt, h0] at hval
    simp [VALID_EXTENSIONS] at hval
  cases hd : lastIdx '.' fname with
  | none =>
    exfalso
    apply hne
    simp [splitext, hd]
  | some d =>
    refine ⟨d, rfl, ?_⟩
    by_cases hall : ((fname.drop (extScanStart fname)).take (d - extScanStart fname)).all
        (fun c => c == '.') = true
    · exfalso
      apply hne
      simp only [splitext, hd]
      rw [if_neg (by omega), if_pos hall]
    · have hres : splitext fname = (fname.take d, fname.drop d) := by
        simp only [splitext, hd]
        rw [if_neg (by omega), if_neg hall]
      rw [hstart] at hall
      simp only [Nat.sub_zero, List.drop_zero] at hall
      exact ⟨by rw [hres], by rw [hres], Bool.not_eq_true _ ▸ (by simpa using hall)⟩

theorem splitext_thumb_path {fname : Str} (hsep : '/' ∉ fname)
    (hval : isValidExt fname = true) :
    splitext (thumb_path_of fname) =
      (THUMBNAIL_FOLDER ++ '/' :: (splitext fname).1, ".webp".data) := by
  obtain ⟨d, hd, hstem, hext, hall⟩ := splitext_valid hsep hval
  set stem := (splitext fname).1 with hstemdef
  have hsepstem : '/' ∉ stem := by
    rw [hstem]
    intro hc
    exact hsep (List.take_subset d fname hc)
  have htp : thumb_path_of fname = (THUMBNAIL_FOLDER ++ ['/']) ++ (stem ++ ".webp".data) := by
    simp [thumb_path_of, thumb_name_of]
  have hslash2 : lastIdx '/' (stem ++ ".webp".data) = none := by
    rw [lastIdx_append_of_none (by decide), lastIdx_none_of_not_mem hsepstem]
  have hslash : lastIdx '/' (thumb_path_of fname) = some 10 := by
    rw [htp, lastIdx_append_of_none hslash2]
    decide
  have hdot2 : lastIdx '.' (stem ++ ".webp".data) = some stem.length := by
    rw [lastIdx_append_of_some (by decide : lastIdx '.' ".webp".data = some 0)]
    simp
  have hdot : lastIdx '.' (thumb_path_of fname) = some (11 + stem.length) := by
    rw [htp, lastIdx_append_of_some hdot2]
    have h11 : (THUMBNAIL_FOLDER ++ ['/']).length = 11 := by decide
    rw [h11]
  have hstart : extScanStart (thumb_path_of fname) = 11 := by
    simp [extScanStart, hslash]
  have hdrop : (thumb_path_of fname).drop 11 = stem ++ ".webp".data := by
    rw [htp]
    exact List.drop_left' (by decide)
  simp only [splitext, hdot, hstart]
  rw [if_neg (by omega)]
  have htake : ((thumb_path_of fname).drop 11).take (11 + stem.length - 11) = stem := by
    rw [hdrop, show 11 + stem.length - 11 = stem.length from by omega]
    exact List.take_left stem ".webp".data
  rw [if_neg (by rw [htake, hstem]; simp only [hall]; exact Bool.false_ne_true)]
  have hassoc : thumb_path_of fname = ((THUMBNAIL_FOLDER ++ '/' :: stem) ++ ".webp".data) := by
    rw [htp]
    simp
  have hlen : (THUMBNAIL_FOLDER ++ '/' :: stem).length = 11 + stem.length := by
    simp only [List.length_append, List.length_cons, THUMBNAIL_FOLDER]
    simp
    omega
  rw [Prod.mk.injEq]
  refine ⟨?_, ?_⟩
  · rw [hassoc]
    exact List.take_left' hlen
  · rw [hassoc]
    exact List.drop_left' hlen

/-- The path actually written by `create_optimized_thumbnail` is the
destination path itself: replacing the `.webp` extension by `.webp` is the
identity. -/
theorem webp_path_eq {fname : Str} (hsep : '/' ∉ fname) (hval : isValidExt fname = true) :
    pyReplace (splitext (thumb_path_of fname)).2 ".webp".data (thumb_path_of fname) =
      thumb_path_of fname := by
  rw [splitext_thumb_path hsep hval]
  exact pyReplace_self _ _

/-- Lines 87-91 as one case split: skip when the destination exists, else
write exactly the destination on codec success, else write nothing. -/
theorem ensure_thumbnail_spec (env : Env) {fname : Str} (hsep : '/' ∉ fname)
    (hval : isValidExt fname = true) (fs : List Str) :
    ensure_thumbnail env fs fname =
      if thumb_path_of fname ∈ fs then (fs, [])
      else if env.thumbOk (IMAGE_FOLDER ++ '/' :: fname) then
        (thumb_path_of fname :: fs, [thumb_path_of fname])
      else (fs, []) := by
  unfold ensure_thumbnail create_optimized_thumbnail
  by_cases h1 : thumb_path_of fname ∈ fs
  · rw [if_pos h1, if_pos h1]
  · rw [if_neg h1, if_neg h1]
    by_cases h2 : env.thumbOk (IMAGE_FOLDER ++ '/' :: fname) = true
    · rw [if_pos h2, if_pos h2]
      rw [webp_path_eq hsep hval]
    · rw [if_neg h2, if_neg h2]

/-! ### Invariants of the assembler loop -/

/-- A file whose extension is not recognized is skipped entirely. -/
theorem processImage_invalid (env : Env) (s : RunState) {f : Str}
    (h : isValidExt f ≠ true) : processImage env s f = s := by
  simp [processImage, h]

/-- Each loop iteration either leaves the filesystem and the write log
unchanged, or records exactly one write, at the thumbnail destination of a
recognized image, and only when that destination did not exist. -/
theorem processImage_step (env : Env) (s : RunState) {f : Str} (hsep : '/' ∉ f) :
    ((processImage env s f).fs = s.fs ∧
      (processImage env s f).thumbWrites = s.thumbWrites)
    ∨ (isValidExt f = true ∧ thumb_path_of f ∉ s.fs ∧
        (processImage env s f).fs = thumb_path_of f :: s.fs ∧
        (processImage env s f).thumbWrites = s.thumbWrites ++ [thumb_path_of f]) := by
  by_cases hv : isValidExt f = true
  · simp only [processImage, if_pos hv, ensure_thumbnail_spec env hsep hv s.fs]
    by_cases h1 : thumb_path_of f ∈ s.fs
    · left
      rw [if_pos h1]
      simp
    · rw [if_neg h1]
      by_cases h2 : env.thumbOk (IMAGE_FOLDER ++ '/' :: f) = true
      · right
        rw [if_pos h2]
        exact ⟨hv, h1, rfl, rfl⟩
      · left
        rw [if_neg h2]
        simp
  · rw [processImage_invalid env s hv]
    left
    exact ⟨rfl, rfl⟩

/-- Each loop iteration's effect on the metadata, for a recognized image. -/
theorem processImage_valid (env : Env) (s : RunState) {f : Str}
    (hv : isValidExt f = true) :
    (processImage env s f).st.images = s.st.images ++ [imageDataOf env f] ∧
      (processImage env s f).st.tags = setUpdate s.st.tags (parse_filename_enhanced f).2.2 ∧
      (processImage env s f).st.total_count = s.st.total_count + 1 := by
  simp [processImage, hv]

theorem processImage_fs_mono (env : Env) (s : RunState) (f : Str) :
    s.fs ⊆ (processImage env s f).fs := by
  by_cases hv : isValidExt f = true
  · simp only [processImage, if_pos hv]
    show s.fs ⊆ (ensure_thumbnail env s.fs f).1
    unfold ensure_thumbnail create_optimized_thumbnail
    by_cases h1 : thumb_path_of f ∈ s.fs
    · rw [if_pos h1]
      exact fun p hp => hp
    · rw [if_neg h1]
      by_cases h2 : env.thumbOk (IMAGE_FOLDER ++ '/' :: f) = true
      · rw [if_pos h2]
        exact List.subset_cons_self _ _
      · rw [if_neg h2]
        exact fun p hp => hp
  · rw [processImage_invalid env s hv]
    exact fun p hp => hp

theorem foldl_fs_mono (env : Env) :
    ∀ files : List Str, ∀ s : RunState,
      s.fs ⊆ (files.foldl (processImage env) s).fs := by
  intro files
  induction files with
  | nil => intro s; exact fun p hp => hp
  | cons f rest ih =>
    intro s
    exact fun p hp => ih (processImage env s f) (processImage_fs_mono env s f hp)

/-- A path that already exists on disk is never written by the loop. -/
theorem foldl_no_overwrite (env : Env) :
    ∀ files : List Str, (∀ f ∈ files, '/' ∉ f) →
      ∀ s : RunState, ∀ p, p ∈ s.fs → p ∉ s.thumbWrites →
        p ∉ (files.foldl (processImage env) s).thumbWrites := by
  intro files
  induction files with
  | nil => intro _ s p _ hw; exact hw
  | cons f rest ih =>
    intro hsep s p hp hw
    have hsf : '/' ∉ f := hsep f (List.mem_cons_self f rest)
    apply ih (fun g hg => hsep g (List.mem_cons_of_mem f hg))
    · exact processImage_fs_mono env s f hp
    · rcases processImage_step env s hsf with ⟨_, h2⟩ | ⟨_, hnm, _, h2⟩
      · rw [h2]; exact hw
      · rw [h2]
        intro hc
        rcases List.mem_append.mp hc with hc | hc
        · exact hw hc
        · rw [List.mem_singleton] at hc
          exact hnm (hc ▸ hp)

/-- After the loop, a thumbnail destination exists for every recognized
image whose codec step succeeds. -/
theorem foldl_covers (env : Env) :
    ∀ files : List Str, (∀ f ∈ files, '/' ∉ f) →
      ∀ s : RunState, ∀ f, f ∈ files → isValidExt f = true →
        env.thumbOk (IMAGE_FOLDER ++ '/' :: f) = true →
        thumb_path_of f ∈ (files.foldl (processImage env) s).fs := by
  intro files
  induction files with
  | nil => intro _ s f hf; exact absurd hf (List.not_mem_nil f)
  | cons g rest ih =>
    intro hsep s f hf hval hok
    rcases List.mem_cons.mp hf with rfl | hf
    · have hsf : '/' ∉ f := hsep f (List.mem_cons_self f rest)
      apply foldl_fs_mono env rest (processImage env s f)
      simp only [processImage, if_pos hval, ensure_thumbnail_spec env hsf hval s.fs]
      by_cases h1 : thumb_path_of f ∈ s.fs
      · rw [if_pos h1]
        exact h1
      · rw [if_neg h1, if_pos hok]
        exact List.mem_cons_self _ _
    · exact ih (fun x hx => hsep x (List.mem_cons_of_mem g hx)) _ f hf hval hok

/-- If every recognized image's thumbnail destination already exists, the
loop writes nothing and the filesystem stays as it is. -/
theorem foldl_no_writes (env : Env) :
    ∀ files : List Str, ∀ s : RunState,
      (∀ f ∈ files, isValidExt f = true → thumb_path_of f ∈ s.fs) →
      (files.foldl (processImage env) s).thumbWrites = s.thumbWrites ∧
        (files.foldl (processImage env) s).fs = s.fs := by
  intro files
  induction files with
  | nil => intro s _; exact ⟨rfl, rfl⟩
  | cons f rest ih =>
    intro s hcov
    have hstep : (processImage env s f).thumbWrites = s.thumbWrites ∧
        (processImage env s f).fs = s.fs := by
      by_cases hv : isValidExt f = true
      · have h1 : thumb_path_of f ∈ s.fs := hcov f (List.mem_cons_self f rest) hv
        simp only [processImage, if_pos hv]
        unfold ensure_thumbnail
        rw [if_pos h1]
        simp
      · rw [processImage_invalid env s hv]
        exact ⟨rfl, rfl⟩
    have := ih (processImage env s f)
      (by
        rw [hstep.2]
        exact fun g hg => hcov g (List.mem_cons_of_mem f hg))
    rw [List.foldl_cons]
    rw [this.1, this.2, hstep.1, hstep.2]
    exact ⟨rfl, rfl⟩

/-- When no listing entry is a recognized image, the loop does nothing. -/
theorem foldl_invalid_all (env : Env) :
    ∀ files : List Str, (∀ f ∈ files, isValidExt f = false) →
      ∀ s : RunState, files.foldl (processImage env) s = s := by
  intro files
  induction files with
  | nil => intro _ s; rfl
  | cons f rest ih =>
    intro h s
    rw [List.foldl_cons, processImage_invalid env s
      (by rw [h f (List.mem_cons_self f rest)]; exact Bool.false_ne_true),
      ih (fun g hg => h g (List.mem_cons_of_mem f hg)) s]

/-- The loop never touches `metadata["last_updated"]`. -/
theorem foldl_last_updated (env : Env) :
    ∀ files : List Str, ∀ s : RunState,
      (files.foldl (processImage env) s).st.last_updated = s.st.last_updated := by
  intro files
  induction files with
  | nil => intro s; rfl
  | cons f rest ih =>
    intro s
    rw [List.foldl_cons, ih]
    by_cases hv : isValidExt f = true
    · simp [processImage, if_pos hv]
    · rw [processImage_invalid env s hv]

/-! ### The tag set -/

theorem mem_setUpdate : ∀ (l acc : List Str) (x : Str),
    x ∈ setUpdate acc l ↔ x ∈ acc ∨ x ∈ l := by
  intro l
  induction l with
  | nil =>
    intro acc x
    simp [setUpdate]
  | cons t ts ih =>
    intro acc x
    show x ∈ setUpdate (if t ∈ acc then acc else acc ++ [t]) ts ↔ _
    rw [ih]
    by_cases h : t ∈ acc
    · rw [if_pos h]
      simp only [List.mem_cons]
      constructor
      · rintro (h1 | h1)
        · exact Or.inl h1
        · exact Or.inr (Or.inr h1)
      · rintro (h1 | h1 | h1)
        · exact Or.inl h1
        · exact Or.inl (h1 ▸ h)
        · exact Or.inr h1
    · rw [if_neg h]
      simp only [List.mem_append, List.mem_singleton, List.mem_cons]
      tauto

theorem nodup_setUpdate : ∀ (l acc : List Str), acc.Nodup → (setUpdate acc l).Nodup := by
  intro l
  induction l with
  | nil =>
    intro acc h
    exact h
  | cons t ts ih =>
    intro acc h
    show (setUpdate (if t ∈ acc then acc else acc ++ [t]) ts).Nodup
    apply ih
    by_cases hm : t ∈ acc
    · rw [if_pos hm]
      exact h
    · rw [if_neg hm]
      exact List.Nodup.append h (List.nodup_singleton t) (List.disjoint_singleton.mpr hm)

/-- Loop invariant: the tag set is duplicate-free and holds exactly the
union of the `auto_tags` of the records assembled so far. -/
theorem foldl_tags_inv (env : Env) :
    ∀ files : List Str, ∀ s : RunState,
      s.st.tags.Nodup →
      (∀ t, t ∈ s.st.tags ↔ ∃ img, img ∈ s.st.images ∧ t ∈ img.auto_tags) →
      (files.foldl (processImage env) s).st.tags.Nodup ∧
        ∀ t, t ∈ (files.foldl (processImage env) s).st.tags ↔
          ∃ img, img ∈ (files.foldl (processImage env) s).st.images ∧ t ∈ img.auto_tags := by
  intro files
  induction files with
  | nil => intro s h1 h2; exact ⟨h1, h2⟩
  | cons f rest ih =>
    intro s h1 h2
    rw [List.foldl_cons]
    by_cases hv : isValidExt f = true
    · obtain ⟨himg, htag, _⟩ := processImage_valid env s hv
      apply ih
      · rw [htag]
        exact nodup_setUpdate _ _ h1
      · intro t
        rw [htag, mem_setUpdate, himg]
        simp only [List.mem_append, List.mem_singleton]
        constructor
        · rintro (h3 | h3)
          · obtain ⟨img, hi, ht⟩ := (h2 t).mp h3
            exact ⟨img, Or.inl hi, ht⟩
          · exact ⟨imageDataOf env f, Or.inr rfl, h3⟩
        · rintro ⟨img, hi | hi, ht⟩
          · exact Or.inl ((h2 t).mpr ⟨img, hi, ht⟩)
          · subst hi
            exact Or.inr ht
    · rw [processImage_invalid env s hv]
      exact ih s h1 h2

/-! ### The sorted listing -/

theorem mem_insertSorted (x y : Str) : ∀ l : List Str,
    x ∈ insertSorted y l ↔ x = y ∨ x ∈ l := by
  intro l
  induction l with
  | nil => simp [insertSorted]
  | cons z zs ih =>
    simp only [insertSorted]
    by_cases h : strLe y z = true
    · rw [if_pos h]
      simp [List.mem_cons]
    · rw [if_neg h]
      simp only [List.mem_cons, ih]
      tauto

theorem mem_pySorted (x : Str) : ∀ l : List Str, x ∈ pySorted l ↔ x ∈ l := by
  intro l
  induction l with
  | nil => simp [pySorted]
  | cons t ts ih =>
    show x ∈ insertSorted t (pySorted ts) ↔ _
    rw [mem_insertSorted, ih]
    simp [List.mem_cons]

/-! ### Concrete environments and set enumerations used as test inputs -/

/-- A source directory holding one image whose decode fails. -/
def envBroken : Env :=
  { dirExists := true
    listing := ["broken.png".data]
    fs0 := []
    thumbOk := fun _ => false
    dims := fun _ => none
    md5hex := fun _ => "0123456789abcdef".data
    r2 := []
    loreExists := false }

/-- A source directory holding one healthy image that detects two tags. -/
def envTwoTags : Env :=
  { dirExists := true
    listing := ["castle_village_1.png".data]
    fs0 := []
    thumbOk := fun _ => true
    dims := fun _ => some (4, 3)
    md5hex := fun _ => "0123456789abcdef".data
    r2 := []
    loreExists := false }

/-- A missing source directory. -/
def envMissing : Env :=
  { dirExists := false
    listing := []
    fs0 := []
    thumbOk := fun _ => true
    dims := fun _ => none
    md5hex := fun _ => "0123456789abcdef".data
    r2 := []
    loreExists := false }

/-- A source directory that exists but holds no recognized image. -/
def envNoImages : Env :=
  { dirExists := true
    listing := ["notes.txt".data]
    fs0 := []
    thumbOk := fun _ => true
    dims := fun _ => none
    md5hex := fun _ => "0123456789abcdef".data
    r2 := []
    loreExists := false }

/-- One admissible behaviour of `list(...)` on a set: members in insertion
order. -/
def enumKeep : List Str → List Str := fun l => l.dedup

/-- Another admissible behaviour of `list(...)` on a set: members in
reversed insertion order. -/
def enumRev : List Str → List Str := fun l => l.dedup.reverse

theorem validEnum_enumKeep : validEnum enumKeep := by
  intro l
  exact ⟨l.nodup_dedup, fun x => List.mem_dedup⟩

theorem validEnum_enumRev : validEnum enumRev := by
  intro l
  refine ⟨List.nodup_reverse.mpr l.nodup_dedup, fun x => ?_⟩
  rw [enumRev, List.mem_reverse, List.mem_dedup]

/-! ### The claims -/

/-- C1: when thumbnail generation fails, the run continues but the produced
`ImageRecord` still points its `thumbnail` field at
`thumbnails/<stem>.webp`, a path at which nothing was ever written (and
which does not exist on disk): the code violates the claim by propagating a
dangling thumbnail reference.  Evaluated at the failing input `envBroken`
(one image, decode fails, empty filesystem). -/
theorem c1_failed_thumbnail_dangling_reference :
    (generate_image_metadata envBroken enumKeep).md.images.map (fun img => img.thumbnail) =
      ["thumbnails/broken.webp".data] ∧
    (generate_image_metadata envBroken enumKeep).thumbWrites = [] ∧
    "thumbnails/broken.webp".data ∉ envBroken.fs0 ∧
    (generate_image_metadata envBroken enumKeep).fsFinal = [] ∧
    (generate_image_metadata envBroken enumKeep).md.total_count = 1 := by
  decide

/-- C2 (counterexample): the serialized `tags` field is `list(set)` without
sorting, so it depends on the set-enumeration order, which Python leaves
unspecified: two admissible enumerations give different (hence not
byte-identical) outputs, and the insertion-order enumeration is not
sorted. -/
theorem c2_tags_not_sorted_counterexample :
    validEnum enumKeep ∧ validEnum enumRev ∧
    (generate_image_metadata envTwoTags enumKeep).md.tags =
      ["village".data, "castle".data] ∧
    (generate_image_metadata envTwoTags enumRev).md.tags =
      ["castle".data, "village".data] ∧
    (generate_image_metadata envTwoTags enumKeep).md.tags ≠
      (generate_image_metadata envTwoTags enumRev).md.tags ∧
    strSorted (generate_image_metadata envTwoTags enumKeep).md.tags = false := by
  exact ⟨validEnum_enumKeep, validEnum_enumRev, by decide, by decide, by decide, by decide⟩

/-- C2 (amended): the serialized `tags` field is a duplicate-free
enumeration of exactly the tag universe (the union of all records'
`auto_tags`), but in an unspecified set-enumeration order: the code does not
sort it, so byte-identical output across runs is not guaranteed. -/
theorem c2_tags_enumeration_of_tag_universe (env : Env)
    (enum : List Str → List Str) (h : validEnum enum) :
    ((generate_image_metadata env enum).md.tags).Nodup ∧
    ∀ t, t ∈ (generate_image_metadata env enum).md.tags ↔
      ∃ img, img ∈ (generate_image_metadata env enum).md.images ∧ t ∈ img.auto_tags := by
  by_cases hd : env.dirExists = true
  · simp only [generate_image_metadata, if_pos hd]
    obtain ⟨hn, hm⟩ := foldl_tags_inv env (pySorted env.listing) (initialRunState env)
      (by simp [initialRunState]) (by intro t; simp [initialRunState])
    obtain ⟨he1, he2⟩ :=
      h ((pySorted env.listing).foldl (processImage env) (initialRunState env)).st.tags
    exact ⟨he1, fun t => (he2 t).trans (hm t)⟩
  · simp only [generate_image_metadata, if_neg hd]
    simp

theorem c2_tags_enumeration_witness :
    ((generate_image_metadata envTwoTags enumKeep).md.tags).Nodup ∧
    ("village".data ∈ (generate_image_metadata envTwoTags enumKeep).md.tags ↔
      ∃ img, img ∈ (generate_image_metadata envTwoTags enumKeep).md.images ∧
        "village".data ∈ img.auto_tags) := by
  have h := c2_tags_enumeration_of_tag_universe envTwoTags enumKeep validEnum_enumKeep
  exact ⟨h.1, h.2 "village".data⟩

/-- C3 (counterexample): for a filename whose first segment carries upper
case, `parse` does not return the first segment as it appears in the
filename: the stem is lower-cased before splitting, so
`"Castle_2024-01-15_09-30-00.png"` yields `"castle"`, not `"Castle"`. -/
theorem c3_primary_tag_counterexample :
    pySplit '_' (splitext "Castle_2024-01-15_09-30-00.png".data).1 =
      ["Castle".data, "2024-01-15".data, "09-30-00".data] ∧
    (parse_filename_enhanced "Castle_2024-01-15_09-30-00.png".data).1 ≠ "Castle".data ∧
    (parse_filename_enhanced "Castle_2024-01-15_09-30-00.png".data).1 = "castle".data := by
  decide

/-- C3 (amended): for every filename whose stem has at least 3
underscore-delimited segments, `parse` returns the lower-cased first segment
as `primaryTag`, and a `displayTimestamp` equal to the lower-cased second
segment, a space, and the lower-cased third segment with every `-` replaced
by `:`; the all-lower-case example `"castle_2024-01-15_09-30-00.png"` yields
`"castle"` and `"2024-01-15 09:30:00"` exactly as claimed. -/
theorem c3_parse_three_segments_lowercased (fname : Str) (p0 p1 p2 : Str)
    (rest : List Str)
    (h : pySplit '_' (splitext fname).1 = p0 :: p1 :: p2 :: rest) :
    (parse_filename_enhanced fname).1 = p0.map Char.toLower ∧
    (parse_filename_enhanced fname).2.1 =
      p1.map Char.toLower ++ ' ' ::
        pyReplace "-".data ":".data (p2.map Char.toLower) := by
  simp only [parse_filename_enhanced, pySplit_map toLower_beq_underscore, h]
  simp only [List.map_cons, List.length_cons]
  rw [if_pos (by omega)]
  exact ⟨rfl, rfl⟩

theorem c3_parse_three_segments_witness :
    (parse_filename_enhanced "castle_2024-01-15_09-30-00.png".data).1 = "castle".data ∧
    (parse_filename_enhanced "castle_2024-01-15_09-30-00.png".data).2.1 =
      "2024-01-15 09:30:00".data := by
  have h := c3_parse_three_segments_lowercased "castle_2024-01-15_09-30-00.png".data
    "castle".data "2024-01-15".data "09-30-00".data [] (by decide)
  exact ⟨h.1.trans (by decide), h.2.trans (by decide)⟩

/-- C5: auto-tag detection is case-insensitive: for every filename the
detected tag set computed from the filename equals the one computed from the
lower-cased filename. -/
theorem c5_auto_tags_case_insensitive (fname : Str) :
    (parse_filename_enhanced fname).2.2 =
      (parse_filename_enhanced (fname.map Char.toLower)).2.2 := by
  rw [parse_filename_enhanced_map_toLower]

/-- C9: for every filename, `auto_tags` is a duplicate-free list drawn from
`AVAILABLE_TAGS`, enumerated in the declaration order of the vocabulary (it
is the sublist of `AVAILABLE_TAGS` of exactly the tags some lower-cased
segment contains), not in the order the matching segments appear in the
filename. -/
theorem c9_auto_tags_vocabulary_order (fname : Str) :
    ((parse_filename_enhanced fname).2.2).Nodup ∧
    List.Sublist ((parse_filename_enhanced fname).2.2) AVAILABLE_TAGS ∧
    (parse_filename_enhanced fname).2.2 =
      AVAILABLE_TAGS.filter (fun tag =>
        (pySplit '_' (((splitext fname).1).map Char.toLower)).any
          (fun part => hasSub tag part)) := by
  have heq : (parse_filename_enhanced fname).2.2 =
      AVAILABLE_TAGS.filter (fun tag =>
        (pySplit '_' (((splitext fname).1).map Char.toLower)).any
          (fun part => hasSub tag part)) := by
    simp only [parse_filename_enhanced]
    split
    · rfl
    · rfl
  have hsub : List.Sublist ((parse_filename_enhanced fname).2.2) AVAILABLE_TAGS := by
    rw [heq]
    exact List.filter_sublist AVAILABLE_TAGS
  exact ⟨List.Sublist.nodup hsub (by decide), hsub, heq⟩

/-- C6: pagination is a lossless partition: for every non-empty record
sequence and every `pageSize ≥ 1`, page `i` (1-indexed) is exactly the slice
`[(i-1)*pageSize, i*pageSize)`, and concatenating every page's records in
page order reproduces the original sequence exactly. -/
theorem c6_paginate_lossless_partition {α : Type} (records : List α) (ps : Nat)
    (h1 : 1 ≤ ps) (_h2 : records ≠ []) :
    (∀ i, 1 ≤ i → i ≤ totalPages records.length ps →
      (paginate records ps)[i - 1]? =
        some ((records.drop ((i - 1) * ps)).take ps)) ∧
    (paginate records ps).flatten = records := by
  constructor
  · intro i hi1 hi2
    simp only [paginate, List.getElem?_map,
      List.getElem?_range (show i - 1 < totalPages records.length ps by omega)]
    rfl
  · exact paginate_flatten ps h1 records.length records le_rfl

theorem c6_paginate_witness :
    (paginate (List.range 5) 2).flatten = List.range 5 ∧
    (paginate (List.range 5) 2)[0]? = some [0, 1] := by
  have h := c6_paginate_lossless_partition (List.range 5) 2 (by decide) (by decide)
  refine ⟨h.2, ?_⟩
  have h1 := h.1 1 le_rfl (by decide)
  simpa using h1.trans (by decide)

/-- C7: for every non-empty record sequence of length `N` and every
`pageSize ≥ 1`, the number of pages is `ceil(N / pageSize)` (as naturals,
`(N + pageSize - 1) / pageSize`), every page but the last holds exactly
`pageSize` records, and the last page holds between 1 and `pageSize`
records. -/
theorem c7_page_count_and_sizes {α : Type} (records : List α) (ps : Nat)
    (h1 : 1 ≤ ps) (h2 : records ≠ []) :
    (paginate records ps).length = (records.length + ps - 1) / ps ∧
    (∀ p ∈ (paginate records ps).dropLast, p.length = ps) ∧
    (∀ p, (paginate records ps).getLast? = some p → 1 ≤ p.length ∧ p.length ≤ ps) := by
  refine ⟨?_, ?_, ?_⟩
  · simp [paginate, totalPages]
  · exact paginate_full_pages ps h1 records.length records le_rfl
  · exact paginate_last_page ps h1 records.length records le_rfl h2

theorem c7_page_count_witness :
    (paginate (List.range 45) 20).map List.length = [20, 20, 5] ∧
    (paginate (List.range 45) 20).length = 3 := by
  have h := c7_page_count_and_sizes (List.range 45) 20 (by decide) (by decide)
  exact ⟨by decide, h.1.trans (by decide)⟩

/-- C8: the pipeline exits with error status 1 both when the source
directory is absent and when it holds zero recognized images; in the
missing-directory case it aborts before writing any output artifact
(no thumbnail, no metadata document, no HTML page). -/
theorem c8_exit_status_on_failure (env : Env) (enum : List Str → List Str) :
    (env.dirExists = false → mainRun env enum = (some 1, [])) ∧
    (env.dirExists = true → (∀ f ∈ env.listing, isValidExt f = false) →
      (mainRun env enum).1 = some 1) := by
  constructor
  · intro h
    simp [mainRun, generate_image_metadata, h]
  · intro h hinv
    have hfold : (pySorted env.listing).foldl (processImage env) (initialRunState env) =
        initialRunState env :=
      foldl_invalid_all env (pySorted env.listing)
        (fun f hf => hinv f ((mem_pySorted f env.listing).mp hf)) (initialRunState env)
    have htotal : (generate_image_metadata env enum).md.total_count = 0 := by
      simp only [generate_image_metadata, if_pos h]
      rw [hfold]
      rfl
    simp [mainRun, htotal]

theorem c8_exit_status_witness :
    mainRun envMissing enumKeep = (some 1, []) ∧
    (mainRun envNoImages enumKeep).1 = some 1 := by
  exact ⟨(c8_exit_status_on_failure envMissing enumKeep).1 rfl,
    (c8_exit_status_on_failure envNoImages enumKeep).2 rfl (by decide)⟩

/-- C10: the serialized metadata document always carries a `last_updated`
field whose value is `null`: the assembler initializes it to `None` and no
step of the pipeline ever assigns it another value before the JSON snapshot
is written. -/
theorem c10_last_updated_always_null (env : Env) (enum : List Str → List Str) :
    (generate_image_metadata env enum).md.last_updated = none ∧
    jlookup (metadataToJson (generate_image_metadata env enum).md)
      "last_updated".data = some Json.null := by
  have h : (generate_image_metadata env enum).md.last_updated = none := by
    by_cases hd : env.dirExists = true
    · simp only [generate_image_metadata, if_pos hd]
      exact foldl_last_updated env (pySorted env.listing) (initialRunState env)
    · simp [generate_image_metadata, hd]
  refine ⟨h, ?_⟩
  simp [metadataToJson, jlookup, h, optStrToJson]

/-- The loop body reads only the codec, dimension, hash and URL oracles
from the environment, never the initial filesystem. -/
theorem processImage_fs0_irrel (env : Env) (x : List Str) :
    processImage { env with fs0 := x } = processImage env := by
  funext s f
  rfl

/-- C4: the thumbnail cache writes a thumbnail for a source image if and
only if no file already exists at the resolved destination path (stated for
runs where the codec succeeds; a codec failure writes nothing, per C1);
consequently nothing already on disk is ever rewritten, and a second run of
the assembler over an unchanged source directory, starting from the
filesystem the first run left behind, regenerates no thumbnail. -/
theorem c4_thumbnail_cache_iff (env : Env) (enum : List Str → List Str)
    (hsep : ∀ f ∈ env.listing, '/' ∉ f)
    (hok : ∀ p : Str, env.thumbOk p = true) :
    (∀ fs : List Str, ∀ f : Str, '/' ∉ f → isValidExt f = true →
      (ensure_thumbnail env fs f).2 =
        if thumb_path_of f ∈ fs then [] else [thumb_path_of f]) ∧
    (∀ p ∈ env.fs0, p ∉ (generate_image_metadata env enum).thumbWrites) ∧
    (generate_image_metadata
        { env with fs0 := (generate_image_metadata env enum).fsFinal }
        enum).thumbWrites = [] := by
  have hsep' : ∀ f ∈ pySorted env.listing, '/' ∉ f :=
    fun f hf => hsep f ((mem_pySorted f env.listing).mp hf)
  refine ⟨?_, ?_, ?_⟩
  · intro fs f hf hv
    rw [ensure_thumbnail_spec env hf hv fs]
    by_cases h1 : thumb_path_of f ∈ fs
    · simp [h1]
    · simp [h1, hok]
  · intro p hp
    by_cases hd : env.dirExists = true
    · simp only [generate_image_metadata, if_pos hd]
      exact foldl_no_overwrite env (pySorted env.listing) hsep' (initialRunState env) p hp
        (List.not_mem_nil p)
    · simp [generate_image_metadata, hd]
  · by_cases hd : env.dirExists = true
    · have hd2 : ({ env with fs0 := (generate_image_metadata env enum).fsFinal } :
          Env).dirExists = true := hd
      simp only [generate_image_metadata, if_pos hd, if_pos hd2,
        processImage_fs0_irrel]
      set r1 := (pySorted env.listing).foldl (processImage env) (initialRunState env)
        with hr1
      have hcov : ∀ f ∈ pySorted env.listing, isValidExt f = true →
          thumb_path_of f ∈ r1.fs := by
        intro f hf hv
        exact foldl_covers env (pySorted env.listing) hsep' (initialRunState env) f hf hv
          (hok _)
      have hinit2 : (initialRunState { env with fs0 := r1.fs }).fs = r1.fs := rfl
      have h := foldl_no_writes env (pySorted env.listing)
        (initialRunState { env with fs0 := r1.fs })
        (by rw [hinit2]; exact hcov)
      exact h.1
    · have hd2 : ¬ ({ env with fs0 := (generate_image_metadata env enum).fsFinal } :
          Env).dirExists = true := hd
      simp [generate_image_metadata, if_neg hd2]

theorem c4_thumbnail_cache_witness :
    (ensure_thumbnail envTwoTags [] "a.png".data).2 = ["thumbnails/a.webp".data] ∧
    (ensure_thumbnail envTwoTags ["thumbnails/a.webp".data] "a.png".data).2 = [] ∧
    (generate_image_metadata
        { envTwoTags with fs0 := (generate_image_metadata envTwoTags enumKeep).fsFinal }
        enumKeep).thumbWrites = [] := by
  have h := c4_thumbnail_cache_iff envTwoTags enumKeep (by decide) (fun p => rfl)
  refine ⟨?_, ?_, h.2.2⟩
  · have h1 := h.1 [] "a.png".data (by decide) (by decide)
    rw [h1]
    decide
  · have h2 := h.1 ["thumbnails/a.webp".data] "a.png".data (by decide) (by decide)
    rw [h2]
    decide

end Gallery
